import Mathlib

/-!
Verification development for the dice-rolling engine of `scripts/dice.py`
(class `DiceRoll`): a shallow embedding of the notation parser, the
roll/modifier pipeline and the describe/format helpers, together with
theorems checking the behavioural claims of the design document.

The random source is modelled as a stream `g : Nat → Nat` of raw draws with
an explicit cursor; `random.randint(lo, hi)` becomes `lo + g k % (hi-lo+1)`,
which ranges over exactly `[lo, hi]` when `lo ≤ hi`.  Loops of the Python
code that are not structurally bounded (reroll-always, the three exploding
loops) take a fuel argument; exhausting fuel is reported as `Ev.fuelOut`,
distinct from a raised Python exception (`Ev.raised`).
-/

/-- The `sides` field of a parsed dice set: a number, or the Fudge marker
(Python stores the string `'f'`). -/
inductive Sides where
  | num : Nat → Sides
  | fudge : Sides
deriving DecidableEq, Repr

/-- The `mod_type` values `kh|kl|dh|dl|r|rr` of the regex alternation. -/
inductive ModType where
  | kh | kl | dh | dl | r | rr
deriving DecidableEq, Repr

/-- The strings the regex fragment `!{1,2}p?` can capture:
`!`, `!!`, `!p` and `!!p`. -/
inductive ExplodeTy where
  | bang | bbang | bangp | bbangp
deriving DecidableEq, Repr

/-- The success-test operators `>= <= > < =`. -/
inductive TestOp where
  | gt | ge | lt | le | eq
deriving DecidableEq, Repr

/-- One entry of `DiceRoll.dice_sets`, as built by `_parse_notation`. -/
structure DiceSet where
  count : Nat
  sides : Sides
  mod_type : Option ModType
  mod_value : Option Nat
  explode_type : Option ExplodeTy
  target_op : Option TestOp
  target_value : Option Nat
deriving DecidableEq, Repr

/-- The parsed state of a `DiceRoll`: the dice sets plus `static_mod`. -/
structure DiceExpr where
  dice_sets : List DiceSet
  static_mod : Int
deriving DecidableEq, Repr

/-! ### Character scanning (the regex `findall`/`sub` pass, made explicit) -/

/-- Greedy `\d*`: split off the maximal digit run. -/
def readDigits : List Char → List Char × List Char
  | [] => ([], [])
  | c :: cs =>
    if c.isDigit then
      let p := readDigits cs
      (c :: p.1, p.2)
    else ([], c :: cs)

/-- Python `int` on a digit string (no sign). -/
def digitsVal (ds : List Char) : Nat :=
  ds.foldl (fun a c => 10 * a + (c.toNat - 48)) 0

/-- The ordered alternation `(kh|kl|dh|dl|r|rr)`.  Python `re` alternation is
first-match: because `r` precedes `rr` and everything after the modifier
group is optional, the `rr` alternative can never be taken — input `rr3`
matches as `r`, leaving `r3` unconsumed.  The embedding therefore has no
reachable `rr` case, exactly like the regex. -/
def readMod : List Char → Option ModType × List Char
  | 'k' :: 'h' :: rest => (some ModType.kh, rest)
  | 'k' :: 'l' :: rest => (some ModType.kl, rest)
  | 'd' :: 'h' :: rest => (some ModType.dh, rest)
  | 'd' :: 'l' :: rest => (some ModType.dl, rest)
  | 'r' :: rest => (some ModType.r, rest)
  | s => (none, s)

/-- The greedy optional fragment `(!{1,2}p?)`. -/
def readExplode : List Char → Option ExplodeTy × List Char
  | '!' :: '!' :: 'p' :: rest => (some ExplodeTy.bbangp, rest)
  | '!' :: '!' :: rest => (some ExplodeTy.bbang, rest)
  | '!' :: 'p' :: rest => (some ExplodeTy.bangp, rest)
  | '!' :: rest => (some ExplodeTy.bang, rest)
  | s => (none, s)

/-- The ordered alternation `(>=|<=|>|<|=)`. -/
def readTest : List Char → Option TestOp × List Char
  | '>' :: '=' :: rest => (some TestOp.ge, rest)
  | '<' :: '=' :: rest => (some TestOp.le, rest)
  | '>' :: rest => (some TestOp.gt, rest)
  | '<' :: rest => (some TestOp.lt, rest)
  | '=' :: rest => (some TestOp.eq, rest)
  | s => (none, s)

/-- `int(m) if m else None` for an optional captured digit run. -/
def optNat (ds : List Char) : Option Nat :=
  if ds.isEmpty then none else some (digitsVal ds)

/-- The optional `(\d+)?` value inside a larger optional group: digits are
consumed (and converted) only when the group's leading token matched. -/
def readVal {a : Type} (o : Option a) (l : List Char) : Option Nat × List Char :=
  match o with
  | some _ =>
    let pd := readDigits l
    (optNat pd.1, pd.2)
  | none => (none, l)

/-- Try the dice-group regex
`(\d*)d(\d+|f)(?:(kh|kl|dh|dl|r|rr)(\d+)?)?(?:(!{1,2}p?)?)?(?:(>=|<=|>|<|=)(\d+)?)?`
anchored at the start of `s`.  The pattern is deterministic here: each
fragment starts with a character class disjoint from the one before it, so
greedy matching never needs to backtrack.  On success, also performs the
per-match value conversions of `_parse_notation` (count defaulting to 1,
captured digit runs via `int`). -/
def matchGroupAt (s : List Char) : Option (DiceSet × List Char) :=
  let pcnt := readDigits s
  match pcnt.2 with
  | 'd' :: s1 =>
    let psides := readDigits s1
    let sidesRest : Option (Sides × List Char) :=
      if psides.1.isEmpty then
        match s1 with
        | 'f' :: s2 => some (Sides.fudge, s2)
        | _ => none
      else some (Sides.num (digitsVal psides.1), psides.2)
    match sidesRest with
    | none => none
    | some (sd, s2) =>
      let pm := readMod s2
      let pv := readVal pm.1 pm.2
      let pe := readExplode pv.2
      let pt := readTest pe.2
      let ptv := readVal pt.1 pt.2
      some (⟨if pcnt.1.isEmpty then 1 else digitsVal pcnt.1, sd,
             pm.1, pv.1, pe.1, pt.1, ptv.1⟩, ptv.2)
  | _ => none

/-- The `re.findall`/`re.sub` scan: walk left to right; at each position try
the dice-group pattern; on a match, record it and resume after it, else keep
the character as leftover text and advance one position.  The fuel argument
is instantiated with the input length, which always suffices because a match
consumes at least two characters. -/
def scanGo : Nat → List Char → List DiceSet × List Char
  | _, [] => ([], [])
  | 0, s => ([], s)
  | fuel + 1, c :: cs =>
    match matchGroupAt (c :: cs) with
    | some (ds, rest) =>
      let p := scanGo fuel rest
      (ds :: p.1, p.2)
    | none =>
      let p := scanGo fuel cs
      (p.1, c :: p.2)

/-- The static-modifier pass: `re.findall(r'([+-]\d+)', remaining)` summed
with `int`.  A sign not followed by a digit fails to match and the scan
advances one character. -/
def modsGo : Nat → List Char → Int
  | _, [] => 0
  | 0, _ => 0
  | fuel + 1, c :: cs =>
    if c = '+' ∨ c = '-' then
      match readDigits cs with
      | ([], _) => modsGo fuel cs
      | (d :: ds, rest) =>
        (if c = '+' then (digitsVal (d :: ds) : Int) else -(digitsVal (d :: ds) : Int)) +
          modsGo fuel rest
    else modsGo fuel cs

/-- `notation.lower().replace(" ", "")`. -/
def canon (s : List Char) : List Char :=
  (s.map Char.toLower).filter (fun c => c ≠ ' ')

/-- `_parse_notation`: canonicalise, extract dice groups, then collect the
static modifiers from the remaining text; no group at all is the parse
error (`ValueError` stored in `self.error`), modelled as `none`. -/
def parseExpr (input : List Char) : Option DiceExpr :=
  let w := canon input
  let p := scanGo w.length w
  if p.1.isEmpty then none else some ⟨p.1, modsGo p.2.length p.2⟩

/-- Parse a string literal. -/
def parseStr (s : String) : Option DiceExpr :=
  parseExpr s.toList

/-! ### The roll pipeline (`DiceRoll.roll` and its helpers) -/

/-- The random source: a stream of raw non-negative draws, consumed at an
explicit cursor position. -/
abbrev Gen := Nat → Nat

/-- `random.randint(lo, hi)` reading the stream at position `k`; for
`lo ≤ hi` the value is exactly in `[lo, hi]`.  Python raises on `hi < lo`
(empty range); the one place that can happen (`sides = 0`) is modelled
explicitly in `rollGroup`. -/
def randint (lo hi : Int) (g : Gen) (k : Nat) : Int :=
  lo + (Int.ofNat (g k)) % (hi - lo + 1)

/-- `[random.randint(lo, hi) for _ in range(n)]`. -/
def rollN (lo hi : Int) (g : Gen) : Nat → Nat → List Int × Nat
  | k, 0 => ([], k)
  | k, n + 1 =>
    let v := randint lo hi g k
    let p := rollN lo hi g (k + 1) n
    (v :: p.1, p.2)

/-- Python `mod_value or 1`: both `None` and `0` are falsy, so an explicit
value of 0 falls back to the default 1 just like an omitted value. -/
def pyOrOne : Option Nat → Nat
  | none => 1
  | some n => if n = 0 then 1 else n

/-- The `'r'` branch of `_apply_rerolls`: each die at or below the threshold
is redrawn exactly once, in place, left to right. -/
def rerollOnce (thr lo hi : Int) (g : Gen) : List Int → Nat → List Int × Nat
  | [], k => ([], k)
  | v :: vs, k =>
    if v ≤ thr then
      let v' := randint lo hi g k
      let p := rerollOnce thr lo hi g vs (k + 1)
      (v' :: p.1, p.2)
    else
      let p := rerollOnce thr lo hi g vs k
      (v :: p.1, p.2)

/-- The inner `while val <= mod_value` loop of the `'rr'` branch, with fuel:
`none` means the loop has not finished within `fuel` iterations. -/
def rerollVal (thr lo hi : Int) (g : Gen) : Nat → Int → Nat → Option (Int × Nat)
  | 0, v, k => if v ≤ thr then none else some (v, k)
  | fuel + 1, v, k =>
    if v ≤ thr then rerollVal thr lo hi g fuel (randint lo hi g k) (k + 1)
    else some (v, k)

/-- The `'rr'` branch of `_apply_rerolls` over the whole list. -/
def rerollAll (thr lo hi : Int) (g : Gen) (fuel : Nat) : List Int → Nat → Option (List Int × Nat)
  | [], k => some ([], k)
  | v :: vs, k =>
    match rerollVal thr lo hi g fuel v k with
    | none => none
    | some (v', k') =>
      match rerollAll thr lo hi g fuel vs k' with
      | none => none
      | some (res, k2) => some (v' :: res, k2)

/-- `_apply_rerolls`: dispatch on the modifier type; Fudge dice redraw in
`{-1, 0, 1}`, numeric dice in `[1, sides]`. -/
def applyRerolls (ds : DiceSet) (rolls : List Int) (g : Gen) (k fuel : Nat) :
    Option (List Int × Nat) :=
  let thr : Int := (pyOrOne ds.mod_value : Int)
  let lo : Int := match ds.sides with | Sides.fudge => -1 | Sides.num _ => 1
  let hi : Int := match ds.sides with | Sides.fudge => 1 | Sides.num n => (n : Int)
  match ds.mod_type with
  | some ModType.r => some (rerollOnce thr lo hi g rolls k)
  | some ModType.rr => rerollAll thr lo hi g fuel rolls k
  | _ => some (rolls, k)

/-- The `'!'` branch of `_apply_exploding`: scan `result` by index while it
grows; each entry equal to the maximum face appends one freshly rolled die,
which is itself scanned later.  Fuel bounds the number of loop iterations. -/
def explodeScan (s : Int) (g : Gen) : Nat → List Int → Nat → Nat → Option (List Int × Nat)
  | 0, result, i, k => if i < result.length then none else some (result, k)
  | fuel + 1, result, i, k =>
    if h : i < result.length then
      if result.get ⟨i, h⟩ = s then
        explodeScan s g fuel (result ++ [randint 1 s g k]) (i + 1) (k + 1)
      else
        explodeScan s g fuel result (i + 1) k
    else some (result, k)

/-- The inner `while value == sides` loop of the `'!!'` branch. -/
def compoundVal (s : Int) (g : Gen) : Nat → Int → Nat → Option (Int × Nat)
  | 0, v, k => if v = s then none else some (v, k)
  | fuel + 1, v, k =>
    if v = s then compoundVal s g fuel (v + randint 1 s g k) (k + 1)
    else some (v, k)

/-- The `'!!'` branch over the whole list: each die accumulates its bonus in
place, no new entries are appended. -/
def compoundAll (s : Int) (g : Gen) (fuel : Nat) : List Int → Nat → Option (List Int × Nat)
  | [], k => some ([], k)
  | v :: vs, k =>
    match compoundVal s g fuel v k with
    | none => none
    | some (v', k') =>
      match compoundAll s g fuel vs k' with
      | none => none
      | some (res, k2) => some (v' :: res, k2)

/-- The inner `while raw_roll == sides` loop of the `'!p'` branch: returns
the penalised rolls appended for one exploding die (the final non-maximal
roll included). -/
def penLoop (s : Int) (g : Gen) : Nat → Int → Nat → Option (List Int × Nat)
  | 0, raw, k => if raw = s then none else some ([max 1 (raw - 1)], k)
  | fuel + 1, raw, k =>
    if raw = s then
      match penLoop s g fuel (randint 1 s g k) (k + 1) with
      | none => none
      | some (rest, k') => some (max 1 (raw - 1) :: rest, k')
    else some ([max 1 (raw - 1)], k)

/-- The `'!p'` branch: every original die at the maximum face rolls a fresh
die and appends its penalised chain; appended dice are collected after the
original rolls in die order. -/
def penAll (s : Int) (g : Gen) (fuel : Nat) : List Int → Nat → Option (List Int × Nat)
  | [], k => some ([], k)
  | v :: vs, k =>
    if v = s then
      match penLoop s g fuel (randint 1 s g k) (k + 1) with
      | none => none
      | some (app1, k1) =>
        match penAll s g fuel vs k1 with
        | none => none
        | some (app2, k2) => some (app1 ++ app2, k2)
    else penAll s g fuel vs k

/-- `_apply_exploding`: skipped entirely for Fudge dice; the captured string
`!!p` matches none of the three explicit branches, so it falls through and
returns the rolls unchanged. -/
def applyExploding (ds : DiceSet) (rolls : List Int) (g : Gen) (k fuel : Nat) :
    Option (List Int × Nat) :=
  match ds.sides with
  | Sides.fudge => some (rolls, k)
  | Sides.num n =>
    match ds.explode_type with
    | some ExplodeTy.bang =>
      match explodeScan (n : Int) g fuel rolls 0 k with
      | none => none
      | some (res, k') => some (res, k')
    | some ExplodeTy.bbang => compoundAll (n : Int) g fuel rolls k
    | some ExplodeTy.bangp =>
      match penAll (n : Int) g fuel rolls k with
      | none => none
      | some (app, k') => some (rolls ++ app, k')
    | _ => some (rolls, k)

/-- Sorting key of `sorted(indexed, key=lambda x: -x[1])`: by value,
descending; `insertionSort` with this non-strict relation is stable, as
Python's `sorted` is. -/
def relDesc : (Nat × Int) → (Nat × Int) → Prop := fun a b => b.2 ≤ a.2

/-- Sorting key of `sorted(indexed, key=lambda x: x[1])`: by value,
ascending, stable. -/
def relAsc : (Nat × Int) → (Nat × Int) → Prop := fun a b => a.2 ≤ b.2

instance : DecidableRel relDesc := fun a b => inferInstanceAs (Decidable (b.2 ≤ a.2))

instance : DecidableRel relAsc := fun a b => inferInstanceAs (Decidable (a.2 ≤ b.2))

instance : IsTotal (Nat × Int) relDesc := ⟨fun a b => le_total b.2 a.2⟩

instance : IsTotal (Nat × Int) relAsc := ⟨fun a b => le_total a.2 b.2⟩

instance : IsTrans (Nat × Int) relDesc := ⟨fun _ _ _ h1 h2 => le_trans h2 h1⟩

instance : IsTrans (Nat × Int) relAsc := ⟨fun _ _ _ h1 h2 => le_trans h1 h2⟩

/-- `{i for i, _ in sorted(indexed, key=...)[:mod_value]}`: the indices of
the first `v` entries of the sorted index/value pairs. -/
def topIdx (r : (Nat × Int) → (Nat × Int) → Prop) [DecidableRel r] (v : Nat)
    (rolls : List Int) : List Nat :=
  ((rolls.enum.insertionSort r).take v).map Prod.fst

/-- `[v for i, v in indexed if i in kept_indices]`. -/
def keepVals (idxs : List Nat) (rolls : List Int) : List Int :=
  (rolls.enum.filter (fun p => decide (p.1 ∈ idxs))).map Prod.snd

/-- `[v for i, v in indexed if i not in drop_indices]`. -/
def dropVals (idxs : List Nat) (rolls : List Int) : List Int :=
  (rolls.enum.filter (fun p => !(decide (p.1 ∈ idxs)))).map Prod.snd

/-- `_apply_keep_drop`: default the value through Python truthiness, clamp
to the number of dice, select by a stable sort on (index, value) pairs, and
re-filter the original list so the kept dice stay in original order. -/
def applyKeepDrop (ds : DiceSet) (rolls : List Int) : List Int :=
  let mv := min (pyOrOne ds.mod_value) rolls.length
  match ds.mod_type with
  | some ModType.kh => keepVals (topIdx relDesc mv rolls) rolls
  | some ModType.kl => keepVals (topIdx relAsc mv rolls) rolls
  | some ModType.dh => dropVals (topIdx relDesc mv rolls) rolls
  | some ModType.dl => dropVals (topIdx relAsc mv rolls) rolls
  | _ => rolls

/-- One comparison of `_count_successes`. -/
def successTest (op : TestOp) (tv v : Int) : Bool :=
  match op with
  | TestOp.gt => decide (v > tv)
  | TestOp.ge => decide (v ≥ tv)
  | TestOp.lt => decide (v < tv)
  | TestOp.le => decide (v ≤ tv)
  | TestOp.eq => decide (v = tv)

/-- `_count_successes`: how many kept rolls pass the comparison. -/
def countSucc (op : TestOp) (tv : Int) (kept : List Int) : Nat :=
  kept.countP (successTest op tv)

/-- Per-group outcome: the post-modifier roll list (`all_rolls` entry), the
kept list (`all_kept` entry) and this group's contribution to `successes`. -/
structure GroupOut where
  rolls : List Int
  kept : List Int
  succ : Nat
deriving DecidableEq, Repr

/-- Outcome of running Python code that may raise or loop: `raised` is an
uncaught exception, `fuelOut` means a fuel bound was exhausted before a
`while` loop finished (the real code would still be looping), `ok` is a
normal return. -/
inductive Ev (α : Type) where
  | raised : Ev α
  | fuelOut : Ev α
  | ok : α → Ev α
deriving DecidableEq, Repr

/-- The modifier pipeline of `DiceRoll.roll` applied to one group's initial
rolls: rerolls, then exploding, then keep/drop, then success counting. -/
def groupPipe (ds : DiceSet) (g : Gen) (rolls0 : List Int) (k fuel : Nat) :
    Ev (GroupOut × Nat) :=
  let step1 : Option (List Int × Nat) :=
    if ds.mod_type = some ModType.r ∨ ds.mod_type = some ModType.rr then
      applyRerolls ds rolls0 g k fuel
    else some (rolls0, k)
  match step1 with
  | none => Ev.fuelOut
  | some (rolls1, k1) =>
    let step2 : Option (List Int × Nat) :=
      if ds.explode_type.isSome then applyExploding ds rolls1 g k1 fuel
      else some (rolls1, k1)
    match step2 with
    | none => Ev.fuelOut
    | some (rolls2, k2) =>
      let kept :=
        if ds.mod_type = some ModType.kh ∨ ds.mod_type = some ModType.kl ∨
            ds.mod_type = some ModType.dh ∨ ds.mod_type = some ModType.dl then
          applyKeepDrop ds rolls2
        else rolls2
      let sc : Nat :=
        match ds.target_op, ds.target_value with
        | some op, some tv => countSucc op (tv : Int) kept
        | _, _ => 0
      Ev.ok (⟨rolls2, kept, sc⟩, k2)

/-- Roll one group: Fudge dice draw from `{-1, 0, 1}`; numeric dice draw
from `[1, sides]`, where `randint(1, 0)` raises `ValueError` as soon as at
least one die is actually drawn. -/
def rollGroup (ds : DiceSet) (g : Gen) (k fuel : Nat) : Ev (GroupOut × Nat) :=
  match ds.sides with
  | Sides.fudge =>
    let p0 := rollN (-1) 1 g k ds.count
    groupPipe ds g p0.1 p0.2 fuel
  | Sides.num n =>
    if 1 ≤ ds.count ∧ n = 0 then Ev.raised
    else
      let p0 := rollN 1 (n : Int) g k ds.count
      groupPipe ds g p0.1 p0.2 fuel

/-- The `for dice_set in self.dice_sets` loop of `roll`; a raised exception
aborts the whole call. -/
def rollSets (g : Gen) (fuel : Nat) : List DiceSet → Nat → Ev (List GroupOut × Nat)
  | [], k => Ev.ok ([], k)
  | ds :: rest, k =>
    match rollGroup ds g k fuel with
    | Ev.raised => Ev.raised
    | Ev.fuelOut => Ev.fuelOut
    | Ev.ok (o, k') =>
      match rollSets g fuel rest k' with
      | Ev.raised => Ev.raised
      | Ev.fuelOut => Ev.fuelOut
      | Ev.ok (os, k2) => Ev.ok (o :: os, k2)

/-- The result dictionary of `DiceRoll.roll` (the fields the claims are
about). -/
structure RollResult where
  total : Int
  rolls : List (List Int)
  kept : List (List Int)
deriving DecidableEq, Repr

/-- `DiceRoll.roll`: process every group, then report either the numeric
total (sum of kept values plus the static modifier) or, if any group has a
success operator, the bare accumulated success count. -/
def roll (e : DiceExpr) (g : Gen) (fuel : Nat) : Ev RollResult :=
  match rollSets g fuel e.dice_sets 0 with
  | Ev.raised => Ev.raised
  | Ev.fuelOut => Ev.fuelOut
  | Ev.ok (outs, _) =>
    let total := (outs.map (fun o => o.kept.sum)).sum + e.static_mod
    let successes := (outs.map (fun o => o.succ)).sum
    Ev.ok ⟨if e.dice_sets.any (fun ds => ds.target_op.isSome) then (successes : Int) else total,
           outs.map (fun o => o.rolls), outs.map (fun o => o.kept)⟩

/-! ### `_describe_dice_set` -/

/-- Decimal rendering of a natural number, digit list form (the f-string
`f"{count}"`).  The fuel argument is instantiated with `n + 1`, which always
suffices since a number needs at most `n + 1` digits. -/
def natReprGo : Nat → Nat → List Char
  | 0, _ => []
  | fuel + 1, n =>
    if n < 10 then [Nat.digitChar n]
    else natReprGo fuel (n / 10) ++ [Nat.digitChar (n % 10)]

/-- Decimal rendering of a natural number. -/
def natRepr (n : Nat) : List Char :=
  natReprGo (n + 1) n

/-- The literal text of a modifier type. -/
def modStr : ModType → List Char
  | ModType.kh => ['k', 'h']
  | ModType.kl => ['k', 'l']
  | ModType.dh => ['d', 'h']
  | ModType.dl => ['d', 'l']
  | ModType.r => ['r']
  | ModType.rr => ['r', 'r']

/-- The literal text of an explode marker. -/
def explodeStr : ExplodeTy → List Char
  | ExplodeTy.bang => ['!']
  | ExplodeTy.bbang => ['!', '!']
  | ExplodeTy.bangp => ['!', 'p']
  | ExplodeTy.bbangp => ['!', '!', 'p']

/-- The literal text of a success operator. -/
def opStr : TestOp → List Char
  | TestOp.gt => ['>']
  | TestOp.ge => ['>', '=']
  | TestOp.lt => ['<']
  | TestOp.le => ['<', '=']
  | TestOp.eq => ['=']

/-- The f-string `f"{sides}"`: the number, or the stored string `'f'`. -/
def sidesStr : Sides → List Char
  | Sides.num n => natRepr n
  | Sides.fudge => ['f']

/-- The modifier fragment of `_describe_dice_set`: the Python truthiness
test `if mod_type and mod_value:` makes a modifier value of 0 falsy, so it
is rendered as if absent. -/
def modPart (mt : Option ModType) (mv : Option Nat) : List Char :=
  match mt, mv with
  | some m, some v => if v = 0 then modStr m else modStr m ++ natRepr v
  | some m, none => modStr m
  | none, _ => []

/-- The explode fragment of `_describe_dice_set`. -/
def explodePart : Option ExplodeTy → List Char
  | some e => explodeStr e
  | none => []

/-- The success-test fragment of `_describe_dice_set`: rendered only when
both the operator and the target value are present (`target_value is not
None`), so a bare operator is not rendered at all. -/
def testPart : Option TestOp → Option Nat → List Char
  | some op, some tv => opStr op ++ natRepr tv
  | _, _ => []

/-- `_describe_dice_set`. -/
def describeDiceSet (ds : DiceSet) : List Char :=
  natRepr ds.count ++ 'd' :: sidesStr ds.sides ++ modPart ds.mod_type ds.mod_value ++
    explodePart ds.explode_type ++ testPart ds.target_op ds.target_value

/-! ### Claim C2 -/

/-- Claim C2 counterexample: `2.5d6` does not fail to parse — the scan
skips `2.` and accepts the group `5d6`, so such input is silently
truncated, contrary to the claim. -/
theorem C2_cex :
    parseStr "2.5d6" =
      some ⟨[⟨5, Sides.num 6, none, none, none, none, none⟩], 0⟩ := by rfl

/-- Amended claim C2: float, hex and scientific forms before `d` are not
rejected; the unmatched leading characters are skipped and the remaining
dice-group token parses (`2.5d6` as `5d6`, `0x2d6` and `1e2d6` as `2d6`). -/
theorem C2_amended :
    parseStr "2.5d6" =
      some ⟨[⟨5, Sides.num 6, none, none, none, none, none⟩], 0⟩ ∧
    parseStr "0x2d6" =
      some ⟨[⟨2, Sides.num 6, none, none, none, none, none⟩], 0⟩ ∧
    parseStr "1e2d6" =
      some ⟨[⟨2, Sides.num 6, none, none, none, none, none⟩], 0⟩ := by
  exact ⟨rfl, rfl, rfl⟩

/-! ### Claim C3 -/

def dsSafe (ds : DiceSet) : Bool :=
  match ds.sides with
  | Sides.fudge => true
  | Sides.num n => 1 ≤ n

theorem groupPipe_ne_raised (ds : DiceSet) (g : Gen) (rolls0 : List Int) (k fuel : Nat) :
    groupPipe ds g rolls0 k fuel ≠ Ev.raised := by
  unfold groupPipe
  intro hc
  dsimp only at hc
  repeat' split at hc
  all_goals contradiction

theorem rollGroup_ne_raised (ds : DiceSet) (g : Gen) (k fuel : Nat)
    (h : dsSafe ds = true) : rollGroup ds g k fuel ≠ Ev.raised := by
  unfold rollGroup
  unfold dsSafe at h
  split
  · exact groupPipe_ne_raised ds g _ _ fuel
  · rename_i n hn
    rw [hn] at h
    simp only [decide_eq_true_eq] at h
    rw [if_neg (by omega)]
    exact groupPipe_ne_raised ds g _ _ fuel

theorem rollSets_ne_raised (g : Gen) (fuel : Nat) (sets : List DiceSet) (k : Nat)
    (h : ∀ ds ∈ sets, dsSafe ds = true) : rollSets g fuel sets k ≠ Ev.raised := by
  induction sets generalizing k with
  | nil => simp [rollSets]
  | cons ds rest ih =>
    unfold rollSets
    have h1 := rollGroup_ne_raised ds g k fuel (h ds (by simp))
    cases hg : rollGroup ds g k fuel with
    | raised => exact absurd hg h1
    | fuelOut => simp
    | ok p =>
      obtain ⟨o, k'⟩ := p
      have h2 := ih (fun d hd => h d (by simp [hd])) (k := k')
      cases hr : rollSets g fuel rest k' with
      | raised => exact absurd hr h2
      | fuelOut => simp [hr]
      | ok q => simp [hr]

/-- Claim C3 counterexample: `2d0` parses successfully into a group with
`sides = 0`, and evaluating it raises (Python `randint(1, 0)` is an empty
range), so it neither fails to parse nor evaluates without error. -/
theorem C3_cex :
    parseStr "2d0" =
      some ⟨[⟨2, Sides.num 0, none, none, none, none, none⟩], 0⟩ ∧
    roll ⟨[⟨2, Sides.num 0, none, none, none, none, none⟩], 0⟩ (fun _ => 0) 0 =
      Ev.raised := by
  exact ⟨rfl, rfl⟩

/-- Amended claim C3: for every expression all of whose groups have Fudge
sides or numeric sides at least 1, evaluation never raises; sides = 0 is the
only way `roll` can raise and the parser does admit it. -/
theorem C3_amended (e : DiceExpr) (g : Gen) (fuel : Nat)
    (h : ∀ ds ∈ e.dice_sets, dsSafe ds = true) : roll e g fuel ≠ Ev.raised := by
  unfold roll
  have h1 := rollSets_ne_raised g fuel e.dice_sets 0 h
  cases hr : rollSets g fuel e.dice_sets 0 with
  | raised => exact absurd hr h1
  | fuelOut => simp
  | ok p => simp

theorem C3_amended_wit :
    (∀ ds ∈ ([⟨2, Sides.num 6, none, none, none, none, none⟩] : List DiceSet),
      dsSafe ds = true) ∧
    roll ⟨[⟨2, Sides.num 6, none, none, none, none, none⟩], 0⟩ (fun _ => 0) 0 ≠
      Ev.raised :=
  ⟨by decide, C3_amended ⟨[⟨2, Sides.num 6, none, none, none, none, none⟩], 0⟩
    (fun _ => 0) 0 (by decide)⟩

/-! ### Claims C1 and C10: success-mode totals -/

theorem groupPipe_ok_succ_zero (ds : DiceSet) (g : Gen) (rolls0 : List Int) (k fuel : Nat)
    (o : GroupOut) (k2 : Nat) (htv : ds.target_value = none)
    (h : groupPipe ds g rolls0 k fuel = Ev.ok (o, k2)) : o.succ = 0 := by
  unfold groupPipe at h
  dsimp only at h
  repeat' split at h
  all_goals (try simp_all)
  all_goals (obtain ⟨h1, h2⟩ := h; rw [← h1])

theorem rollGroup_ok_succ_zero (ds : DiceSet) (g : Gen) (k fuel : Nat) (o : GroupOut)
    (k2 : Nat) (htv : ds.target_value = none) (h : rollGroup ds g k fuel = Ev.ok (o, k2)) :
    o.succ = 0 := by
  unfold rollGroup at h
  dsimp only at h
  split at h
  · exact groupPipe_ok_succ_zero _ _ _ _ _ _ _ htv h
  · split at h
    · contradiction
    · exact groupPipe_ok_succ_zero _ _ _ _ _ _ _ htv h

/-- Claim C10: a bare success operator (e.g. `2d6>`) parses with
`target_value = None`, still switches the expression into success mode, yet
contributes zero successes, so a single-group bare-test expression reports
total 0 regardless of the rolled values and of the static modifier. -/
theorem C10_bare_test (ds : DiceSet) (S : Int) (g : Gen) (fuel : Nat) (r : RollResult)
    (hop : ds.target_op.isSome = true) (htv : ds.target_value = none)
    (h : roll ⟨[ds], S⟩ g fuel = Ev.ok r) :
    parseStr "2d6>" =
      some ⟨[⟨2, Sides.num 6, none, none, none, some TestOp.gt, none⟩], 0⟩ ∧
    r.total = 0 := by
  refine ⟨rfl, ?_⟩
  unfold roll at h
  simp only [rollSets] at h
  cases hg : rollGroup ds g 0 fuel with
  | raised => rw [hg] at h; contradiction
  | fuelOut => rw [hg] at h; contradiction
  | ok p =>
    obtain ⟨o, k'⟩ := p
    rw [hg] at h
    have hsucc := rollGroup_ok_succ_zero ds g 0 fuel o k' htv hg
    simp only [List.any_cons, List.any_nil, hop, Bool.true_or, if_pos,
      List.map_cons, List.map_nil, List.sum_cons, List.sum_nil] at h
    rw [Ev.ok.injEq] at h
    rw [← h]
    simp [hsucc]

theorem C10_bare_test_wit :
    ((⟨2, Sides.num 6, none, none, none, some TestOp.gt, none⟩ : DiceSet).target_op.isSome
        = true) ∧
    ((⟨2, Sides.num 6, none, none, none, some TestOp.gt, none⟩ : DiceSet).target_value
        = none) ∧
    (roll ⟨[⟨2, Sides.num 6, none, none, none, some TestOp.gt, none⟩], 0⟩
        (fun k => [5, 5].getD k 0) 0 = Ev.ok ⟨0, [[6, 6]], [[6, 6]]⟩) ∧
    (⟨0, [[6, 6]], [[6, 6]]⟩ : RollResult).total = 0 :=
  ⟨rfl, rfl, rfl,
    (C10_bare_test ⟨2, Sides.num 6, none, none, none, some TestOp.gt, none⟩ 0
      (fun k => [5, 5].getD k 0) 0 ⟨0, [[6, 6]], [[6, 6]]⟩ rfl rfl (by rfl)).2⟩

/-- Claim C1 counterexample: for `1d6>3 + 1d4 + 10` with rolls 5 and 2 the
code reports total 1 (the bare success count), not the claimed
success-count-plus-other-sums-plus-static value 1 + 2 + 10 = 13. -/
theorem C1_cex :
    roll ⟨[⟨1, Sides.num 6, none, none, none, some TestOp.gt, some 3⟩,
           ⟨1, Sides.num 4, none, none, none, none, none⟩], 10⟩
        (fun k => [4, 1].getD k 0) 0 =
      Ev.ok ⟨1, [[5], [2]], [[5], [2]]⟩ ∧
    ((countSucc TestOp.gt 3 [5] : Int) + ([(2 : Int)].sum + 10) ≠ (1 : Int)) := by
  exact ⟨rfl, by decide⟩

/-- Amended claim C1: when any group declares a success operator, the
reported total is exactly the accumulated success count of the groups that
have both an operator and a target value; the sums of the non-test groups
and the static modifier are not added in. -/
theorem C1_amended (e : DiceExpr) (g : Gen) (fuel : Nat) (outs : List GroupOut) (k : Nat)
    (hany : (e.dice_sets.any fun ds => ds.target_op.isSome) = true)
    (h : rollSets g fuel e.dice_sets 0 = Ev.ok (outs, k)) :
    roll e g fuel =
      Ev.ok ⟨(outs.map fun o => (o.succ : Int)).sum,
        outs.map fun o => o.rolls, outs.map fun o => o.kept⟩ := by
  unfold roll
  rw [h]
  simp [hany]

theorem C1_amended_wit :
    ((⟨[⟨1, Sides.num 6, none, none, none, some TestOp.gt, some 3⟩,
        ⟨1, Sides.num 4, none, none, none, none, none⟩], 10⟩ : DiceExpr).dice_sets.any
        fun ds => ds.target_op.isSome) = true ∧
    rollSets (fun k => [4, 1].getD k 0) 0
        [⟨1, Sides.num 6, none, none, none, some TestOp.gt, some 3⟩,
         ⟨1, Sides.num 4, none, none, none, none, none⟩] 0 =
      Ev.ok ([⟨[5], [5], 1⟩, ⟨[2], [2], 0⟩], 2) ∧
    roll ⟨[⟨1, Sides.num 6, none, none, none, some TestOp.gt, some 3⟩,
           ⟨1, Sides.num 4, none, none, none, none, none⟩], 10⟩
        (fun k => [4, 1].getD k 0) 0 =
      Ev.ok ⟨(([⟨[5], [5], 1⟩, ⟨[2], [2], 0⟩] : List GroupOut).map fun o => (o.succ : Int)).sum,
        ([⟨[5], [5], 1⟩, ⟨[2], [2], 0⟩] : List GroupOut).map fun o => o.rolls,
        ([⟨[5], [5], 1⟩, ⟨[2], [2], 0⟩] : List GroupOut).map fun o => o.kept⟩ :=
  ⟨rfl, rfl,
    C1_amended ⟨[⟨1, Sides.num 6, none, none, none, some TestOp.gt, some 3⟩,
        ⟨1, Sides.num 4, none, none, none, none, none⟩], 10⟩
      (fun k => [4, 1].getD k 0) 0 [⟨[5], [5], 1⟩, ⟨[2], [2], 0⟩] 2 rfl rfl⟩

/-! ### Claim C4: plain `NdM` rolls -/

theorem rollN_length (lo hi : Int) (g : Gen) (k n : Nat) : (rollN lo hi g k n).1.length = n := by
  induction n generalizing k with
  | zero => rfl
  | succ n ih => simp [rollN, ih]

theorem randint_mem (lo hi : Int) (g : Gen) (k : Nat) (h : lo ≤ hi) :
    lo ≤ randint lo hi g k ∧ randint lo hi g k ≤ hi := by
  unfold randint
  have h1 := Int.emod_nonneg (Int.ofNat (g k)) (by omega : hi - lo + 1 ≠ 0)
  have h2 := Int.emod_lt_of_pos (Int.ofNat (g k)) (by omega : (0 : Int) < hi - lo + 1)
  omega

theorem rollN_mem (lo hi : Int) (g : Gen) (k n : Nat) (h : lo ≤ hi) :
    ∀ v ∈ (rollN lo hi g k n).1, lo ≤ v ∧ v ≤ hi := by
  induction n generalizing k with
  | zero => simp [rollN]
  | succ n ih =>
    intro v hv
    simp only [rollN, List.mem_cons] at hv
    rcases hv with h1 | h2
    · subst h1; exact randint_mem lo hi g k h
    · exact ih (k + 1) v h2

/-- Claim C4: a plain `NdM` group (no modifiers) with a static modifier `S`
produces exactly `N` rolled values, each in `[1, M]`, and reports
`sum(rolls) + S`. -/
theorem C4_ndm (N M : Nat) (S : Int) (g : Gen) (fuel : Nat) (_hN : 1 ≤ N) (hM : 1 ≤ M) :
    roll ⟨[⟨N, Sides.num M, none, none, none, none, none⟩], S⟩ g fuel =
      Ev.ok ⟨(rollN 1 (M : Int) g 0 N).1.sum + S, [(rollN 1 (M : Int) g 0 N).1],
        [(rollN 1 (M : Int) g 0 N).1]⟩ ∧
    (rollN 1 (M : Int) g 0 N).1.length = N ∧
    ∀ v ∈ (rollN 1 (M : Int) g 0 N).1, 1 ≤ v ∧ v ≤ (M : Int) := by
  have hno : ¬(1 ≤ N ∧ M = 0) := by omega
  refine ⟨?_, rollN_length 1 (M : Int) g 0 N, rollN_mem 1 (M : Int) g 0 N (by omega)⟩
  simp [roll, rollSets, rollGroup, groupPipe, hno]

theorem C4_ndm_wit :
    (1 ≤ 2 ∧ 1 ≤ 6) ∧
    roll ⟨[⟨2, Sides.num 6, none, none, none, none, none⟩], 5⟩ (fun k => [3, 4].getD k 0) 0 =
      Ev.ok ⟨(rollN 1 (6 : Int) (fun k => [3, 4].getD k 0) 0 2).1.sum + 5,
        [(rollN 1 (6 : Int) (fun k => [3, 4].getD k 0) 0 2).1],
        [(rollN 1 (6 : Int) (fun k => [3, 4].getD k 0) 0 2).1]⟩ ∧
    (rollN 1 (6 : Int) (fun k => [3, 4].getD k 0) 0 2).1.length = 2 ∧
    ∀ v ∈ (rollN 1 (6 : Int) (fun k => [3, 4].getD k 0) 0 2).1, 1 ≤ v ∧ v ≤ (6 : Int) :=
  ⟨⟨by norm_num, by norm_num⟩,
    C4_ndm 2 6 5 (fun k => [3, 4].getD k 0) 0 (by norm_num) (by norm_num)⟩

/-! ### Claim C6: reroll-always termination -/

/-- The inner reroll-always loop never finishes, for any fuel bound. -/
theorem rerollVal_none (thr lo hi : Int) (g : Gen) (hlo : lo ≤ hi) (hthr : hi ≤ thr) :
    ∀ fuel v k, v ≤ thr → rerollVal thr lo hi g fuel v k = none := by
  intro fuel
  induction fuel with
  | zero => intro v k hv; simp [rerollVal, hv]
  | succ n ih =>
    intro v k hv
    simp only [rerollVal, if_pos hv]
    exact ih _ _ (le_trans (randint_mem lo hi g k hlo).2 hthr)

/-- The whole `roll` call reports fuel exhaustion for every fuel bound: the
Python original would still be inside `while val <= mod_value`. -/
def rollNeverOk (e : DiceExpr) (g : Gen) : Prop :=
  ∀ fuel, roll e g fuel = Ev.fuelOut

/-- Claim C6 counterexample: a reroll-always group with threshold 6 on a
d6 makes `roll` run out of fuel for every fuel bound — the code neither
rejects the configuration nor bounds the retry count, so the Python
original loops forever. -/
theorem C6_cex :
    rollNeverOk ⟨[⟨1, Sides.num 6, some ModType.rr, some 6, none, none, none⟩], 0⟩
      (fun _ => 0) := by
  intro fuel
  have h1 : rerollVal 6 1 6 (fun _ => 0) fuel (randint 1 6 (fun _ => 0) 0) 1 = none :=
    rerollVal_none 6 1 6 (fun _ => 0) (by norm_num) (by norm_num) fuel _ 1
      (by norm_num [randint])
  simp [roll, rollSets, rollGroup, groupPipe, applyRerolls, rerollAll, rollN, pyOrOne, h1]

theorem readMod_ne_rr (s : List Char) : (readMod s).1 ≠ some ModType.rr := by
  unfold readMod
  repeat' split
  all_goals simp

theorem matchGroupAt_mod_ne_rr (s : List Char) (ds : DiceSet) (rest : List Char)
    (h : matchGroupAt s = some (ds, rest)) : ds.mod_type ≠ some ModType.rr := by
  unfold matchGroupAt at h
  dsimp only at h
  repeat' split at h
  all_goals (try contradiction)
  all_goals
    (simp only [Option.some.injEq, Prod.mk.injEq] at h
     obtain ⟨h1, h2⟩ := h
     rw [← h1]
     exact readMod_ne_rr _)

theorem scanGo_mod_ne_rr (fuel : Nat) (s : List Char) (ds : DiceSet)
    (h : ds ∈ (scanGo fuel s).1) : ds.mod_type ≠ some ModType.rr := by
  induction fuel generalizing s ds with
  | zero => cases s <;> simp [scanGo] at h
  | succ n ih =>
    cases s with
    | nil => simp [scanGo] at h
    | cons c cs =>
      rw [scanGo] at h
      cases hm : matchGroupAt (c :: cs) with
      | none =>
        rw [hm] at h
        exact ih cs ds h
      | some p =>
        obtain ⟨d, rest⟩ := p
        rw [hm] at h
        simp only [List.mem_cons] at h
        rcases h with h | h
        · subst h; exact matchGroupAt_mod_ne_rr _ _ _ hm
        · exact ih rest ds h

/-- Amended claim C6: no parsed expression can contain a reroll-always
group, because the regex alternation tries `r` before `rr` and the rest of
the pattern is optional; therefore the unbounded reroll-always loop is
unreachable from `roll` on any parsed expression. -/
theorem C6_amended (input : List Char) (e : DiceExpr) (ds : DiceSet)
    (hp : parseExpr input = some e) (hds : ds ∈ e.dice_sets) :
    ds.mod_type ≠ some ModType.rr := by
  unfold parseExpr at hp
  dsimp only at hp
  split at hp
  · contradiction
  · injection hp with hp
    rw [← hp] at hds
    exact scanGo_mod_ne_rr _ _ _ hds

theorem C6_amended_wit :
    parseExpr ("2d6rr3".toList) =
      some ⟨[⟨2, Sides.num 6, some ModType.r, none, none, none, none⟩], 0⟩ ∧
    (⟨2, Sides.num 6, some ModType.r, none, none, none, none⟩ : DiceSet) ∈
      (⟨[⟨2, Sides.num 6, some ModType.r, none, none, none, none⟩], 0⟩ : DiceExpr).dice_sets ∧
    (⟨2, Sides.num 6, some ModType.r, none, none, none, none⟩ : DiceSet).mod_type ≠
      some ModType.rr :=
  ⟨rfl, by simp,
    C6_amended ("2d6rr3".toList) ⟨[⟨2, Sides.num 6, some ModType.r, none, none, none, none⟩], 0⟩
      ⟨2, Sides.num 6, some ModType.r, none, none, none, none⟩ (by rfl) (by simp)⟩

/-! ### Claim C7: normal exploding -/

theorem explodeScan_spec (s : Int) (g : Gen) :
    ∀ fuel result i k res k2,
      explodeScan s g fuel result i k = some (res, k2) → i ≤ result.length →
      res.take result.length = result ∧
      res.length = result.length + ((res.drop i).countP fun v => decide (v = s)) := by
  intro fuel
  induction fuel with
  | zero =>
    intro result i k res k2 h hi
    unfold explodeScan at h
    split at h
    · contradiction
    · rename_i hge
      rw [Option.some.injEq, Prod.mk.injEq] at h
      obtain ⟨h1, _⟩ := h
      subst h1
      refine ⟨List.take_length _, ?_⟩
      rw [List.drop_eq_nil_of_le (by omega)]
      simp
  | succ n ih =>
    intro result i k res k2 h hi
    unfold explodeScan at h
    split at h
    · rename_i hlt
      split at h
      · rename_i hget
        rw [List.get_eq_getElem] at hget
        have hrec := ih (result ++ [randint 1 s g k]) (i + 1) (k + 1) res k2 h
          (by simp only [List.length_append, List.length_cons, List.length_nil]; omega)
        obtain ⟨hA, hB⟩ := hrec
        simp only [List.length_append, List.length_cons, List.length_nil] at hA hB
        have hreslen : result.length + 1 ≤ res.length := by
          have hlen := congrArg List.length hA
          simp only [List.length_take, List.length_append, List.length_cons,
            List.length_nil] at hlen
          omega
        have htake : res.take result.length = result := by
          have ht : res.take result.length = (res.take (result.length + 1)).take result.length := by
            rw [List.take_take, min_eq_left (by omega)]
          rw [ht, hA]
          have h2 := List.take_left result [randint 1 s g k]
          simp only [List.length_append, List.length_cons, List.length_nil] at h2 ⊢
          exact h2
        refine ⟨htake, ?_⟩
        have hilt : i < res.length := by omega
        have hgi : res[i]? = some s := by
          have e2 := congrArg (fun l => l[i]?) hA
          simp only [List.getElem?_take, List.getElem?_append] at e2
          rw [if_pos (by omega : i < result.length + 1), if_pos hlt] at e2
          rw [e2, List.getElem?_eq_getElem hlt, hget]
        have hv : res.get ⟨i, hilt⟩ = s := by
          rw [List.get_eq_getElem]
          have e3 := List.getElem?_eq_getElem hilt
          rw [e3] at hgi
          exact Option.some_inj.mp hgi
        have hdrop : res.drop i = res.get ⟨i, hilt⟩ :: res.drop (i + 1) := by
          rw [List.get_eq_getElem]
          exact List.drop_eq_getElem_cons hilt
        rw [hdrop, List.countP_cons, hv]
        simp only [decide_True, if_pos]
        omega
      · rename_i hget
        have hrec := ih result (i + 1) k res k2 h (by omega)
        obtain ⟨hA, hB⟩ := hrec
        refine ⟨hA, ?_⟩
        have hreslen : result.length ≤ res.length := by
          have hlen := congrArg List.length hA
          simp only [List.length_take] at hlen
          omega
        have hilt : i < res.length := by omega
        have hgi : res[i]? = some (result.get ⟨i, hlt⟩) := by
          have e2 := congrArg (fun l => l[i]?) hA
          simp only [List.getElem?_take] at e2
          rw [if_pos hlt] at e2
          rw [e2, List.getElem?_eq_getElem hlt]
          rfl
        have hv : res.get ⟨i, hilt⟩ = result.get ⟨i, hlt⟩ := by
          have e3 := List.getElem?_eq_getElem hilt
          rw [e3] at hgi
          rw [List.get_eq_getElem]
          exact Option.some_inj.mp hgi
        have hdrop : res.drop i = res.get ⟨i, hilt⟩ :: res.drop (i + 1) := by
          rw [List.get_eq_getElem]
          exact List.drop_eq_getElem_cons hilt
        rw [hdrop, List.countP_cons, hv]
        rw [decide_eq_false hget]
        simp only [Bool.false_eq_true, if_neg, if_false]
        omega
    · rename_i hge
      rw [Option.some.injEq, Prod.mk.injEq] at h
      obtain ⟨h1, _⟩ := h
      subst h1
      refine ⟨List.take_length _, ?_⟩
      rw [List.drop_eq_nil_of_le (by omega)]
      simp

/-- Claim C7: for normal exploding on a non-Fudge group, when the scan
finishes, the original rolls are a prefix of the final list and the final
length is the initial length plus the number of maximum-face entries in the
final list (each such entry triggered exactly one appended die). -/
theorem C7_exploding (ds : DiceSet) (n : Nat) (rolls : List Int) (g : Gen) (k fuel : Nat)
    (res : List Int) (k2 : Nat) (hs : ds.sides = Sides.num n)
    (he : ds.explode_type = some ExplodeTy.bang)
    (h : applyExploding ds rolls g k fuel = some (res, k2)) :
    res.take rolls.length = rolls ∧
    res.length = rolls.length + (res.countP fun v => decide (v = (n : Int))) := by
  unfold applyExploding at h
  rw [hs, he] at h
  dsimp only at h
  cases hex : explodeScan (n : Int) g fuel rolls 0 k with
  | none => rw [hex] at h; contradiction
  | some p =>
    obtain ⟨res1, k21⟩ := p
    rw [hex] at h
    dsimp only at h
    rw [Option.some.injEq, Prod.mk.injEq] at h
    obtain ⟨h1, _⟩ := h
    subst h1
    have hs2 := explodeScan_spec (n : Int) g fuel rolls 0 k res1 k21 hex (Nat.zero_le _)
    rw [List.drop_zero] at hs2
    exact hs2

theorem C7_exploding_wit :
    ((⟨2, Sides.num 6, none, none, some ExplodeTy.bang, none, none⟩ : DiceSet).sides
        = Sides.num 6) ∧
    ((⟨2, Sides.num 6, none, none, some ExplodeTy.bang, none, none⟩ : DiceSet).explode_type
        = some ExplodeTy.bang) ∧
    applyExploding ⟨2, Sides.num 6, none, none, some ExplodeTy.bang, none, none⟩
        [6, 2] (fun _ => 2) 0 10 = some ([6, 2, 3], 1) ∧
    ([6, 2, 3] : List Int).take ([6, 2] : List Int).length = [6, 2] ∧
    ([6, 2, 3] : List Int).length =
      ([6, 2] : List Int).length +
        (([6, 2, 3] : List Int).countP fun v => decide (v = ((6 : Nat) : Int))) :=
  ⟨rfl, rfl, by rfl,
    (C7_exploding ⟨2, Sides.num 6, none, none, some ExplodeTy.bang, none, none⟩ 6
      [6, 2] (fun _ => 2) 0 10 [6, 2, 3] 1 rfl rfl (by rfl))⟩

/-! ### Claim C5: keep/drop selection -/

theorem enum_fst_nodup (rolls : List Int) : (rolls.enum.map Prod.fst).Nodup := by
  rw [List.enum_map_fst]
  exact List.nodup_range _

theorem enum_nodup (rolls : List Int) : rolls.enum.Nodup :=
  (enum_fst_nodup rolls).of_map Prod.fst

theorem enum_fst_inj (rolls : List Int) (p q : Nat × Int) (hp : p ∈ rolls.enum)
    (hq : q ∈ rolls.enum) (h : p.1 = q.1) : p = q := by
  obtain ⟨i, x⟩ := p
  obtain ⟨j, y⟩ := q
  simp only at h
  subst h
  rw [List.mk_mem_enum_iff_getElem?] at hp hq
  rw [hp, Option.some_inj] at hq
  rw [hq]

section KeepDropLemmas

variable (r : (Nat × Int) → (Nat × Int) → Prop) [DecidableRel r]

theorem sortedEnum_perm (rolls : List Int) :
    List.Perm (rolls.enum.insertionSort r) rolls.enum :=
  List.perm_insertionSort r _

theorem sortedEnum_length (rolls : List Int) :
    (rolls.enum.insertionSort r).length = rolls.length := by
  rw [(sortedEnum_perm r rolls).length_eq, List.enum_length]

theorem sortedEnum_nodup (rolls : List Int) : (rolls.enum.insertionSort r).Nodup :=
  (sortedEnum_perm r rolls).nodup_iff.mpr (enum_nodup rolls)

theorem mem_topIdx_iff (v : Nat) (rolls : List Int) (p : Nat × Int) (hp : p ∈ rolls.enum) :
    p.1 ∈ topIdx r v rolls ↔ p ∈ (rolls.enum.insertionSort r).take v := by
  unfold topIdx
  constructor
  · intro h
    rw [List.mem_map] at h
    obtain ⟨q, hq1, hq2⟩ := h
    have hq3 : q ∈ rolls.enum :=
      (sortedEnum_perm r rolls).subset (List.take_subset _ _ hq1)
    rw [← enum_fst_inj rolls q p hq3 hp hq2]
    exact hq1
  · intro h
    exact List.mem_map_of_mem Prod.fst h

theorem keepFilter_perm (v : Nat) (rolls : List Int) :
    List.Perm (rolls.enum.filter (fun p => decide (p.1 ∈ topIdx r v rolls)))
      ((rolls.enum.insertionSort r).take v) := by
  have d1 : (rolls.enum.filter (fun p => decide (p.1 ∈ topIdx r v rolls))).Nodup :=
    (enum_nodup rolls).filter _
  have d2 : ((rolls.enum.insertionSort r).take v).Nodup :=
    (sortedEnum_nodup r rolls).sublist (List.take_sublist _ _)
  refine (List.perm_ext_iff_of_nodup d1 d2).mpr ?_
  intro q
  simp only [List.mem_filter, decide_eq_true_eq]
  constructor
  · rintro ⟨hq1, hq2⟩
    exact (mem_topIdx_iff r v rolls q hq1).mp hq2
  · intro hq
    have hq3 : q ∈ rolls.enum := (sortedEnum_perm r rolls).subset (List.take_subset _ _ hq)
    exact ⟨hq3, (mem_topIdx_iff r v rolls q hq3).mpr hq⟩

theorem keepVals_perm_top (v : Nat) (rolls : List Int) :
    List.Perm (keepVals (topIdx r v rolls) rolls)
      (((rolls.enum.insertionSort r).take v).map Prod.snd) :=
  (keepFilter_perm r v rolls).map Prod.snd

theorem keepVals_top_length (v : Nat) (rolls : List Int) (hv : v ≤ rolls.length) :
    (keepVals (topIdx r v rolls) rolls).length = v := by
  rw [(keepVals_perm_top r v rolls).length_eq, List.length_map, List.length_take,
    sortedEnum_length, min_eq_left hv]

end KeepDropLemmas

theorem keepVals_sublist (idxs : List Nat) (rolls : List Int) :
    (keepVals idxs rolls).Sublist rolls := by
  unfold keepVals
  have h1 := (List.filter_sublist (p := fun p : Nat × Int => decide (p.1 ∈ idxs))
    rolls.enum).map Prod.snd
  rw [List.enum_map_snd] at h1
  exact h1

theorem dropVals_sublist (idxs : List Nat) (rolls : List Int) :
    (dropVals idxs rolls).Sublist rolls := by
  unfold dropVals
  have h1 := (List.filter_sublist (p := fun p : Nat × Int => !(decide (p.1 ∈ idxs)))
    rolls.enum).map Prod.snd
  rw [List.enum_map_snd] at h1
  exact h1

theorem keep_drop_perm (idxs : List Nat) (rolls : List Int) :
    List.Perm (keepVals idxs rolls ++ dropVals idxs rolls) rolls := by
  unfold keepVals dropVals
  rw [← List.map_append]
  have h1 := (List.filter_append_perm (fun p : Nat × Int => decide (p.1 ∈ idxs))
    rolls.enum).map Prod.snd
  rw [List.enum_map_snd] at h1
  exact h1

theorem dropVals_top_length (r : (Nat × Int) → (Nat × Int) → Prop) [DecidableRel r]
    (v : Nat) (rolls : List Int) (hv : v ≤ rolls.length) :
    (dropVals (topIdx r v rolls) rolls).length = rolls.length - v := by
  have hperm := (keep_drop_perm (topIdx r v rolls) rolls).length_eq
  rw [List.length_append, keepVals_top_length r v rolls hv] at hperm
  omega

section Dominance

variable (r : (Nat × Int) → (Nat × Int) → Prop) [DecidableRel r]
  [IsTotal (Nat × Int) r] [IsTrans (Nat × Int) r]

theorem keep_drop_dominance (rv : Int → Int → Prop) (hrv : ∀ p q, r p q → rv p.2 q.2)
    (v : Nat) (rolls : List Int) :
    ∀ x ∈ keepVals (topIdx r v rolls) rolls,
      ∀ y ∈ dropVals (topIdx r v rolls) rolls, rv x y := by
  intro x hx y hy
  unfold keepVals at hx
  unfold dropVals at hy
  rw [List.mem_map] at hx hy
  obtain ⟨p, hp1, hp2⟩ := hx
  obtain ⟨q, hq1, hq2⟩ := hy
  rw [List.mem_filter] at hp1 hq1
  obtain ⟨hpE, hpI⟩ := hp1
  obtain ⟨hqE, hqI⟩ := hq1
  have hpT : p ∈ (rolls.enum.insertionSort r).take v :=
    (mem_topIdx_iff r v rolls p hpE).mp (by simpa using hpI)
  have hqS : q ∈ rolls.enum.insertionSort r := (sortedEnum_perm r rolls).mem_iff.mpr hqE
  have hqD : q ∈ (rolls.enum.insertionSort r).drop v := by
    have hq4 : q ∈ (rolls.enum.insertionSort r).take v ++
        (rolls.enum.insertionSort r).drop v := by
      rw [List.take_append_drop]
      exact hqS
    rcases List.mem_append.mp hq4 with h | h
    · exfalso
      have h5 : q.1 ∈ topIdx r v rolls := (mem_topIdx_iff r v rolls q hqE).mpr h
      simp only [Bool.not_eq_true', decide_eq_false_iff_not] at hqI
      exact hqI h5
    · exact h
  have hsorted : List.Sorted r (rolls.enum.insertionSort r) := List.sorted_insertionSort r _
  have hrpq : r p q := by
    rw [← List.take_append_drop v (rolls.enum.insertionSort r)] at hsorted
    exact (List.pairwise_append.mp hsorted).2.2 p hpT q hqD
  rw [← hp2, ← hq2]
  exact hrv p q hrpq

end Dominance

/-- Claim C5: for each of the four keep/drop modifiers with value `V`
(`1 ≤ V ≤ N`), the kept list has the claimed length, is a subsequence of the
original rolls (original order preserved), and the selected index set holds
the `V` highest (kh/dh) or `V` lowest (kl/dl) values: every kept value
dominates every complement value in the appropriate direction. -/
theorem C5_keep_drop (ds : DiceSet) (rolls : List Int) (V : Nat)
    (hv : ds.mod_value = some V) (h1 : 1 ≤ V) (h2 : V ≤ rolls.length) :
    (ds.mod_type = some ModType.kh →
      (applyKeepDrop ds rolls).length = V ∧
      (applyKeepDrop ds rolls).Sublist rolls ∧
      List.Perm (applyKeepDrop ds rolls ++ dropVals (topIdx relDesc V rolls) rolls) rolls ∧
      ∀ x ∈ applyKeepDrop ds rolls, ∀ y ∈ dropVals (topIdx relDesc V rolls) rolls, y ≤ x) ∧
    (ds.mod_type = some ModType.kl →
      (applyKeepDrop ds rolls).length = V ∧
      (applyKeepDrop ds rolls).Sublist rolls ∧
      List.Perm (applyKeepDrop ds rolls ++ dropVals (topIdx relAsc V rolls) rolls) rolls ∧
      ∀ x ∈ applyKeepDrop ds rolls, ∀ y ∈ dropVals (topIdx relAsc V rolls) rolls, x ≤ y) ∧
    (ds.mod_type = some ModType.dh →
      (applyKeepDrop ds rolls).length = rolls.length - V ∧
      (applyKeepDrop ds rolls).Sublist rolls ∧
      List.Perm (keepVals (topIdx relDesc V rolls) rolls ++ applyKeepDrop ds rolls) rolls ∧
      ∀ x ∈ keepVals (topIdx relDesc V rolls) rolls, ∀ y ∈ applyKeepDrop ds rolls, y ≤ x) ∧
    (ds.mod_type = some ModType.dl →
      (applyKeepDrop ds rolls).length = rolls.length - V ∧
      (applyKeepDrop ds rolls).Sublist rolls ∧
      List.Perm (keepVals (topIdx relAsc V rolls) rolls ++ applyKeepDrop ds rolls) rolls ∧
      ∀ x ∈ keepVals (topIdx relAsc V rolls) rolls, ∀ y ∈ applyKeepDrop ds rolls, x ≤ y) := by
  have hpy : pyOrOne ds.mod_value = V := by
    rw [hv]
    have he : pyOrOne (some V) = if V = 0 then 1 else V := rfl
    rw [he, if_neg (by omega)]
  refine ⟨?_, ?_, ?_, ?_⟩
  · intro hmod
    have happ : applyKeepDrop ds rolls = keepVals (topIdx relDesc V rolls) rolls := by
      unfold applyKeepDrop
      rw [hmod, hpy, min_eq_left h2]
    rw [happ]
    exact ⟨keepVals_top_length relDesc V rolls h2, keepVals_sublist _ _,
      keep_drop_perm _ _, keep_drop_dominance relDesc (fun x y => y ≤ x)
        (fun p q h => h) V rolls⟩
  · intro hmod
    have happ : applyKeepDrop ds rolls = keepVals (topIdx relAsc V rolls) rolls := by
      unfold applyKeepDrop
      rw [hmod, hpy, min_eq_left h2]
    rw [happ]
    exact ⟨keepVals_top_length relAsc V rolls h2, keepVals_sublist _ _,
      keep_drop_perm _ _, keep_drop_dominance relAsc (fun x y => x ≤ y)
        (fun p q h => h) V rolls⟩
  · intro hmod
    have happ : applyKeepDrop ds rolls = dropVals (topIdx relDesc V rolls) rolls := by
      unfold applyKeepDrop
      rw [hmod, hpy, min_eq_left h2]
    rw [happ]
    exact ⟨dropVals_top_length relDesc V rolls h2, dropVals_sublist _ _,
      keep_drop_perm _ _, fun x hx y hy =>
        keep_drop_dominance relDesc (fun a b => b ≤ a) (fun p q h => h) V rolls x hx y hy⟩
  · intro hmod
    have happ : applyKeepDrop ds rolls = dropVals (topIdx relAsc V rolls) rolls := by
      unfold applyKeepDrop
      rw [hmod, hpy, min_eq_left h2]
    rw [happ]
    exact ⟨dropVals_top_length relAsc V rolls h2, dropVals_sublist _ _,
      keep_drop_perm _ _, fun x hx y hy =>
        keep_drop_dominance relAsc (fun a b => a ≤ b) (fun p q h => h) V rolls x hx y hy⟩

theorem C5_keep_drop_wit :
    ((⟨4, Sides.num 6, some ModType.kh, some 2, none, none, none⟩ : DiceSet).mod_value
        = some 2) ∧
    (1 ≤ 2 ∧ 2 ≤ ([3, 5, 3] : List Int).length) ∧
    ((applyKeepDrop ⟨4, Sides.num 6, some ModType.kh, some 2, none, none, none⟩
        [3, 5, 3]).length = 2 ∧
      (applyKeepDrop ⟨4, Sides.num 6, some ModType.kh, some 2, none, none, none⟩
        [3, 5, 3]).Sublist [3, 5, 3] ∧
      List.Perm (applyKeepDrop ⟨4, Sides.num 6, some ModType.kh, some 2, none, none, none⟩
          [3, 5, 3] ++ dropVals (topIdx relDesc 2 [3, 5, 3]) [3, 5, 3]) [3, 5, 3] ∧
      ∀ x ∈ applyKeepDrop ⟨4, Sides.num 6, some ModType.kh, some 2, none, none, none⟩
          [3, 5, 3],
        ∀ y ∈ dropVals (topIdx relDesc 2 [3, 5, 3]) [3, 5, 3], y ≤ x) :=
  ⟨rfl, ⟨by norm_num, by norm_num⟩,
    (C5_keep_drop ⟨4, Sides.num 6, some ModType.kh, some 2, none, none, none⟩
      [3, 5, 3] 2 rfl (by norm_num) (by norm_num)).1 rfl⟩

/-! ### Claim C9: an explicit modifier value of 0 behaves as the default 1 -/

/-- Claim C9: `kh0`/`r0` parse with stored value 0; Python `or`-defaulting
then treats 0 exactly like an omitted value, i.e. like 1: keep/drop keeps or
drops exactly one die and rerolling triggers on values at or below 1. -/
theorem C9_zero_default :
    parseStr "4d6kh0" =
      some ⟨[⟨4, Sides.num 6, some ModType.kh, some 0, none, none, none⟩], 0⟩ ∧
    parseStr "4d6r0" =
      some ⟨[⟨4, Sides.num 6, some ModType.r, some 0, none, none, none⟩], 0⟩ ∧
    (∀ ds : DiceSet, ∀ rolls : List Int, ds.mod_value = some 0 →
      applyKeepDrop ds rolls = applyKeepDrop {ds with mod_value := some 1} rolls) ∧
    (∀ ds : DiceSet, ∀ rolls : List Int, ∀ g : Gen, ∀ k fuel : Nat, ds.mod_value = some 0 →
      applyRerolls ds rolls g k fuel = applyRerolls {ds with mod_value := some 1} rolls g k fuel) ∧
    (∀ rolls : List Int, 1 ≤ rolls.length →
      (applyKeepDrop ⟨4, Sides.num 6, some ModType.kh, some 0, none, none, none⟩
          rolls).length = 1 ∧
      (applyKeepDrop ⟨4, Sides.num 6, some ModType.dl, some 0, none, none, none⟩
          rolls).length = rolls.length - 1) ∧
    (∀ rolls : List Int, ∀ g : Gen, ∀ k fuel : Nat,
      applyRerolls ⟨4, Sides.num 6, some ModType.r, some 0, none, none, none⟩ rolls g k fuel =
        some (rerollOnce 1 1 6 g rolls k)) := by
  refine ⟨rfl, rfl, ?_, ?_, ?_, ?_⟩
  · intro ds rolls h
    simp [applyKeepDrop, pyOrOne, h]
  · intro ds rolls g k fuel h
    simp [applyRerolls, pyOrOne, h]
  · intro rolls h
    constructor
    · have happ : applyKeepDrop ⟨4, Sides.num 6, some ModType.kh, some 0, none, none, none⟩
          rolls = keepVals (topIdx relDesc 1 rolls) rolls := by
        simp [applyKeepDrop, pyOrOne, min_eq_left h]
      rw [happ]
      exact keepVals_top_length relDesc 1 rolls h
    · have happ : applyKeepDrop ⟨4, Sides.num 6, some ModType.dl, some 0, none, none, none⟩
          rolls = dropVals (topIdx relAsc 1 rolls) rolls := by
        simp [applyKeepDrop, pyOrOne, min_eq_left h]
      rw [happ]
      exact dropVals_top_length relAsc 1 rolls h
  · intro rolls g k fuel
    rfl

theorem C9_zero_default_wit :
    ((⟨4, Sides.num 6, some ModType.kh, some 0, none, none, none⟩ : DiceSet).mod_value
        = some 0) ∧
    applyKeepDrop ⟨4, Sides.num 6, some ModType.kh, some 0, none, none, none⟩ [3, 5, 3] =
      applyKeepDrop ⟨4, Sides.num 6, some ModType.kh, some 1, none, none, none⟩ [3, 5, 3] ∧
    (1 ≤ ([3, 5, 3] : List Int).length) ∧
    (applyKeepDrop ⟨4, Sides.num 6, some ModType.kh, some 0, none, none, none⟩
        [3, 5, 3]).length = 1 :=
  ⟨rfl,
    C9_zero_default.2.2.1 ⟨4, Sides.num 6, some ModType.kh, some 0, none, none, none⟩
      [3, 5, 3] rfl,
    by norm_num,
    (C9_zero_default.2.2.2.2.1 [3, 5, 3] (by norm_num)).1⟩

/-! ### Claim C8: describe/parse round trip -/

theorem natReprGo_chars : ∀ fuel n c, c ∈ natReprGo fuel n → ∃ d, d < 10 ∧ c = Nat.digitChar d := by
  intro fuel
  induction fuel with
  | zero => intro n c hc; simp [natReprGo] at hc
  | succ f ih =>
    intro n c hc
    unfold natReprGo at hc
    split at hc
    · rename_i hn
      simp only [List.mem_singleton] at hc
      exact ⟨n, hn, hc⟩
    · rw [List.mem_append] at hc
      rcases hc with hc | hc
      · exact ih (n / 10) c hc
      · simp only [List.mem_singleton] at hc
        exact ⟨n % 10, Nat.mod_lt _ (by norm_num), hc⟩

theorem digitChar_isDigit (d : Nat) (h : d < 10) : (Nat.digitChar d).isDigit = true := by
  interval_cases d <;> decide

theorem digitChar_toNat (d : Nat) (h : d < 10) : (Nat.digitChar d).toNat = 48 + d := by
  interval_cases d <;> decide

theorem digitChar_toLower (d : Nat) (h : d < 10) :
    (Nat.digitChar d).toLower = Nat.digitChar d := by
  interval_cases d <;> decide

theorem digitChar_ne_space (d : Nat) (h : d < 10) : Nat.digitChar d ≠ ' ' := by
  interval_cases d <;> decide

theorem natRepr_digits (n : Nat) : ∀ c ∈ natRepr n, c.isDigit = true := by
  intro c hc
  obtain ⟨d, hd, hcd⟩ := natReprGo_chars (n + 1) n c hc
  rw [hcd]
  exact digitChar_isDigit d hd

theorem natReprGo_ne_nil (fuel n : Nat) (h : 1 ≤ fuel) : natReprGo fuel n ≠ [] := by
  cases fuel with
  | zero => omega
  | succ f =>
    unfold natReprGo
    split
    · simp
    · simp

theorem natRepr_ne_nil (n : Nat) : natRepr n ≠ [] :=
  natReprGo_ne_nil (n + 1) n (by omega)

theorem digitsVal_append_char (ds : List Char) (c : Char) :
    digitsVal (ds ++ [c]) = 10 * digitsVal ds + (c.toNat - 48) := by
  unfold digitsVal
  rw [List.foldl_append]
  rfl

theorem digitsVal_natReprGo : ∀ fuel n, n < 10 ^ fuel → digitsVal (natReprGo fuel n) = n := by
  intro fuel
  induction fuel with
  | zero =>
    intro n h
    simp only [pow_zero, Nat.lt_one_iff] at h
    subst h
    rfl
  | succ f ih =>
    intro n h
    unfold natReprGo
    split
    · rename_i hn
      show digitsVal [Nat.digitChar n] = n
      have h1 : digitsVal [Nat.digitChar n] = (Nat.digitChar n).toNat - 48 := by
        unfold digitsVal
        simp [List.foldl]
      rw [h1, digitChar_toNat n hn]
      omega
    · rename_i hn
      rw [digitsVal_append_char]
      have hdiv : n / 10 < 10 ^ f := by
        rw [Nat.div_lt_iff_lt_mul (by norm_num : 0 < 10)]
        calc n < 10 ^ (f + 1) := h
          _ = 10 ^ f * 10 := by ring
      rw [ih (n / 10) hdiv, digitChar_toNat (n % 10) (Nat.mod_lt _ (by norm_num))]
      omega

theorem natRepr_val (n : Nat) : digitsVal (natRepr n) = n := by
  apply digitsVal_natReprGo
  calc n < 10 ^ n := Nat.lt_pow_self (by norm_num) n
    _ ≤ 10 ^ (n + 1) := Nat.pow_le_pow_right (by norm_num) (Nat.le_succ n)

/-- Either empty or the first character is not a digit. -/
def headDigitFree : List Char → Prop
  | [] => True
  | c :: _ => c.isDigit = false

theorem readDigits_split (ds rest : List Char) (h1 : ∀ c ∈ ds, c.isDigit = true)
    (h2 : headDigitFree rest) : readDigits (ds ++ rest) = (ds, rest) := by
  induction ds with
  | nil =>
    simp only [List.nil_append]
    cases rest with
    | nil => rfl
    | cons c cs =>
      unfold headDigitFree at h2
      unfold readDigits
      rw [h2]
      simp
  | cons c cs ih =>
    simp only [List.cons_append]
    unfold readDigits
    rw [h1 c (by simp), ih (fun x hx => h1 x (by simp [hx]))]
    simp

theorem canon_fixed (l : List Char) (h : ∀ c ∈ l, c.toLower = c ∧ c ≠ ' ') : canon l = l := by
  unfold canon
  have hmap : l.map Char.toLower = l := by
    conv_rhs => rw [← List.map_id l]
    exact List.map_congr_left (fun c hc => (h c hc).1)
  rw [hmap]
  refine List.filter_eq_self.mpr ?_
  intro c hc
  simpa using (h c hc).2

theorem char_ok_digit (n : Nat) (c : Char) (hc : c ∈ natRepr n) : c.toLower = c ∧ c ≠ ' ' := by
  obtain ⟨d, hd, rfl⟩ := natReprGo_chars (n + 1) n c hc
  exact ⟨digitChar_toLower d hd, digitChar_ne_space d hd⟩

theorem char_ok_sidesStr (sd : Sides) (c : Char) (hc : c ∈ sidesStr sd) :
    c.toLower = c ∧ c ≠ ' ' := by
  cases sd with
  | num n => exact char_ok_digit n c hc
  | fudge =>
    simp only [sidesStr, List.mem_singleton] at hc
    subst hc
    exact ⟨by decide, by decide⟩

theorem char_ok_modStr (mt : ModType) (c : Char) (hc : c ∈ modStr mt) :
    c.toLower = c ∧ c ≠ ' ' := by
  have hchar : c = 'k' ∨ c = 'h' ∨ c = 'l' ∨ c = 'd' ∨ c = 'r' := by
    cases mt <;> simp only [modStr, List.mem_cons, List.mem_singleton,
      List.not_mem_nil, or_false] at hc <;> tauto
  rcases hchar with rfl | rfl | rfl | rfl | rfl <;> exact ⟨by decide, by decide⟩

theorem char_ok_modPart (mt : Option ModType) (mv : Option Nat) (c : Char)
    (hc : c ∈ modPart mt mv) : c.toLower = c ∧ c ≠ ' ' := by
  cases mt with
  | none => simp [modPart] at hc
  | some m =>
    cases mv with
    | none => exact char_ok_modStr m c hc
    | some v =>
      simp only [modPart] at hc
      split at hc
      · exact char_ok_modStr m c hc
      · rw [List.mem_append] at hc
        rcases hc with hc | hc
        · exact char_ok_modStr m c hc
        · exact char_ok_digit v c hc

theorem char_ok_explodeStr (e : ExplodeTy) (c : Char) (hc : c ∈ explodeStr e) :
    c.toLower = c ∧ c ≠ ' ' := by
  have hchar : c = '!' ∨ c = 'p' := by
    cases e <;> simp only [explodeStr, List.mem_cons, List.mem_singleton,
      List.not_mem_nil, or_false] at hc <;> tauto
  rcases hchar with rfl | rfl <;> exact ⟨by decide, by decide⟩

theorem char_ok_explodePart (et : Option ExplodeTy) (c : Char) (hc : c ∈ explodePart et) :
    c.toLower = c ∧ c ≠ ' ' := by
  cases et with
  | none => simp [explodePart] at hc
  | some e => exact char_ok_explodeStr e c hc

theorem char_ok_opStr (op : TestOp) (c : Char) (hc : c ∈ opStr op) :
    c.toLower = c ∧ c ≠ ' ' := by
  have hchar : c = '>' ∨ c = '<' ∨ c = '=' := by
    cases op <;> simp only [opStr, List.mem_cons, List.mem_singleton,
      List.not_mem_nil, or_false] at hc <;> tauto
  rcases hchar with rfl | rfl | rfl <;> exact ⟨by decide, by decide⟩

theorem char_ok_testPart (top : Option TestOp) (tv : Option Nat) (c : Char)
    (hc : c ∈ testPart top tv) : c.toLower = c ∧ c ≠ ' ' := by
  cases top with
  | none => simp [testPart] at hc
  | some op =>
    cases tv with
    | none => simp [testPart] at hc
    | some v =>
      unfold testPart at hc
      rw [List.mem_append] at hc
      rcases hc with hc | hc
      · exact char_ok_opStr op c hc
      · exact char_ok_digit v c hc

theorem describe_chars (g : DiceSet) : ∀ c ∈ describeDiceSet g, c.toLower = c ∧ c ≠ ' ' := by
  intro c hc
  unfold describeDiceSet at hc
  simp only [List.mem_append, List.mem_cons] at hc
  rcases hc with (((hc | rfl | hc) | hc) | hc) | hc
  · exact char_ok_digit g.count c hc
  · exact ⟨by decide, by decide⟩
  · exact char_ok_sidesStr g.sides c hc
  · exact char_ok_modPart _ _ c hc
  · exact char_ok_explodePart _ c hc
  · exact char_ok_testPart _ _ c hc

/-- Either empty or the head is one of the characters a success test can
start with. -/
def headOkT : List Char → Prop
  | [] => True
  | c :: _ => c = '>' ∨ c = '<' ∨ c = '='

/-- Either empty or the head is one of the characters an explode marker or
success test can start with. -/
def headOkET : List Char → Prop
  | [] => True
  | c :: _ => c = '!' ∨ c = '>' ∨ c = '<' ∨ c = '='

theorem headOkT_testPart (top : Option TestOp) (tv : Option Nat) :
    headOkT (testPart top tv) := by
  cases top with
  | none => cases tv <;> simp [testPart, headOkT]
  | some op =>
    cases tv with
    | none => simp [testPart, headOkT]
    | some v => cases op <;> simp [testPart, opStr, headOkT]

theorem headOkET_et (et : Option ExplodeTy) (top : Option TestOp) (tv : Option Nat) :
    headOkET (explodePart et ++ testPart top tv) := by
  cases et with
  | none =>
    rw [explodePart, List.nil_append]
    have h := headOkT_testPart top tv
    cases htp : testPart top tv with
    | nil => simp [headOkET]
    | cons c cs =>
      rw [htp] at h
      unfold headOkT at h
      unfold headOkET
      tauto
  | some e => cases e <;> simp [explodePart, explodeStr, headOkET]

theorem headDigitFree_of_headOkET (l : List Char) (h : headOkET l) : headDigitFree l := by
  cases l with
  | nil => trivial
  | cons c cs =>
    unfold headOkET at h
    rcases h with rfl | rfl | rfl | rfl <;> rfl

theorem headDigitFree_modrest (mt : Option ModType) (mv : Option Nat)
    (et : Option ExplodeTy) (top : Option TestOp) (tv : Option Nat) :
    headDigitFree (modPart mt mv ++ (explodePart et ++ testPart top tv)) := by
  cases mt with
  | none =>
    rw [show modPart none mv = [] from rfl, List.nil_append]
    exact headDigitFree_of_headOkET _ (headOkET_et et top tv)
  | some m =>
    have hmp : ∃ rest, modPart (some m) mv ++ (explodePart et ++ testPart top tv) =
        modStr m ++ rest := by
      cases mv with
      | none => exact ⟨_, rfl⟩
      | some v =>
        by_cases hv : v = 0
        · refine ⟨explodePart et ++ testPart top tv, ?_⟩
          simp only [modPart, if_pos hv]
        · refine ⟨natRepr v ++ (explodePart et ++ testPart top tv), ?_⟩
          simp only [modPart, if_neg hv]
          rw [List.append_assoc]
    obtain ⟨rest, hrest⟩ := hmp
    rw [hrest]
    cases m <;> simp [modStr, headDigitFree]

theorem readMod_skip (l : List Char) (h : headOkET l) : readMod l = (none, l) := by
  cases l with
  | nil => rfl
  | cons c cs =>
    unfold headOkET at h
    rcases h with rfl | rfl | rfl | rfl <;> rfl

theorem readMod_lit (mt : ModType) (hmt : mt ≠ ModType.rr) (rest : List Char) :
    readMod (modStr mt ++ rest) = (some mt, rest) := by
  cases mt
  · rfl
  · rfl
  · rfl
  · rfl
  · rfl
  · exact absurd rfl hmt

theorem readExplode_skip (l : List Char) (h : headOkT l) : readExplode l = (none, l) := by
  cases l with
  | nil => rfl
  | cons c cs =>
    unfold headOkT at h
    rcases h with rfl | rfl | rfl <;> rfl

theorem readExplode_full (et : Option ExplodeTy) (t : List Char) (h : headOkT t) :
    readExplode (explodePart et ++ t) = (et, t) := by
  cases et with
  | none =>
    rw [show explodePart none = [] from rfl, List.nil_append]
    exact readExplode_skip t h
  | some e =>
    cases e with
    | bang =>
      cases t with
      | nil => rfl
      | cons c cs =>
        unfold headOkT at h
        rcases h with rfl | rfl | rfl <;> rfl
    | bbang =>
      cases t with
      | nil => rfl
      | cons c cs =>
        unfold headOkT at h
        rcases h with rfl | rfl | rfl <;> rfl
    | bangp => rfl
    | bbangp => rfl

theorem readTest_gt (c : Char) (cs : List Char) (h : ¬c = '=') :
    readTest ('>' :: c :: cs) = (some TestOp.gt, c :: cs) := by
  unfold readTest
  split
  · rename_i rest heq
    injection heq with h1 h2
    injection h2 with h3 h4
    exact absurd h3 h
  · rename_i rest heq
    injection heq with h1 h2
    exact absurd h1 (by decide)
  · rename_i rest heq
    injection heq with h1 h2
    rw [← h2]
  · rename_i rest heq
    injection heq with h1 h2
    exact absurd h1 (by decide)
  · rename_i rest heq
    injection heq with h1 h2
    exact absurd h1 (by decide)
  · rename_i h1 h2 h3 h4 h5
    exact absurd rfl (h3 (c :: cs))

theorem readTest_lt (c : Char) (cs : List Char) (h : ¬c = '=') :
    readTest ('<' :: c :: cs) = (some TestOp.lt, c :: cs) := by
  unfold readTest
  split
  · rename_i rest heq
    injection heq with h1 h2
    exact absurd h1 (by decide)
  · rename_i rest heq
    injection heq with h1 h2
    injection h2 with h3 h4
    exact absurd h3 h
  · rename_i rest heq
    injection heq with h1 h2
    exact absurd h1 (by decide)
  · rename_i rest heq
    injection heq with h1 h2
    rw [← h2]
  · rename_i rest heq
    injection heq with h1 h2
    exact absurd h1 (by decide)
  · rename_i h1 h2 h3 h4 h5
    exact absurd rfl (h4 (c :: cs))

/-- The digit run that an optional modifier/target value renders to. -/
def valPart : Option Nat → List Char
  | some v => natRepr v
  | none => []

theorem natRepr_head_ne_eq (v : Nat) : ∃ c cs, natRepr v = c :: cs ∧ ¬c = '=' := by
  obtain ⟨c, cs, hc⟩ := List.exists_cons_of_ne_nil (natRepr_ne_nil v)
  refine ⟨c, cs, hc, ?_⟩
  have hd := natRepr_digits v c (by rw [hc]; simp)
  intro heq
  rw [heq] at hd
  exact absurd hd (by decide)

theorem readTest_full (top : Option TestOp) (tv : Option Nat)
    (htv : tv.isSome = true → top.isSome = true)
    (hbare : ¬(top.isSome = true ∧ tv = none)) :
    readTest (testPart top tv) = (top, valPart tv) := by
  cases top with
  | none =>
    cases tv with
    | none => rfl
    | some v => simp at htv
  | some op =>
    cases tv with
    | none => exact absurd ⟨rfl, rfl⟩ hbare
    | some v =>
      obtain ⟨c, cs, hc, hne⟩ := natRepr_head_ne_eq v
      show readTest (opStr op ++ natRepr v) = (some op, natRepr v)
      cases op with
      | gt => rw [hc]; exact readTest_gt c cs hne
      | ge => rfl
      | lt => rw [hc]; exact readTest_lt c cs hne
      | le => rfl
      | eq => rfl

theorem readVal_some_digits {a : Type} (o : a) (v : Nat) (rest : List Char)
    (h : headDigitFree rest) :
    readVal (some o) (natRepr v ++ rest) = (some v, rest) := by
  unfold readVal
  rw [readDigits_split (natRepr v) rest (natRepr_digits v) h]
  dsimp only
  unfold optNat
  rw [if_neg (by simp [natRepr_ne_nil v]), natRepr_val]

theorem readVal_some_nodigits {a : Type} (o : a) (rest : List Char) (h : headDigitFree rest) :
    readVal (some o) rest = (none, rest) := by
  unfold readVal
  have h2 := readDigits_split [] rest (by simp) h
  rw [List.nil_append] at h2
  rw [h2]
  rfl

theorem readVal_full {a : Type} (o : Option a) (mv : Option Nat) (rest : List Char)
    (h : headDigitFree rest) (hsome : mv.isSome = true → o.isSome = true) :
    readVal o (valPart mv ++ rest) = (mv, rest) := by
  cases o with
  | none =>
    cases mv with
    | some v => simp at hsome
    | none => rw [show valPart none = [] from rfl, List.nil_append]; rfl
  | some x =>
    cases mv with
    | none =>
      rw [show valPart none = [] from rfl, List.nil_append]
      exact readVal_some_nodigits x rest h
    | some v => exact readVal_some_digits x v rest h

theorem readMod_modPart (mt : Option ModType) (mv : Option Nat)
    (hmt : mt ≠ some ModType.rr) (hmv : mv.isSome = true → mt.isSome = true)
    (hmv0 : mv ≠ some 0)
    (et : Option ExplodeTy) (top : Option TestOp) (tv : Option Nat) :
    readMod (modPart mt mv ++ (explodePart et ++ testPart top tv)) =
      (mt, valPart mv ++ (explodePart et ++ testPart top tv)) := by
  cases mt with
  | none =>
    cases mv with
    | some v => simp at hmv
    | none =>
      rw [show modPart none none = [] from rfl, List.nil_append,
        show valPart none = [] from rfl, List.nil_append]
      exact readMod_skip _ (headOkET_et et top tv)
  | some m =>
    have hm : m ≠ ModType.rr := fun h => hmt (by rw [h])
    cases mv with
    | none =>
      rw [show modPart (some m) none = modStr m from rfl,
        show valPart none = [] from rfl, List.nil_append]
      exact readMod_lit m hm _
    | some v =>
      have hv : ¬(v = 0) := fun h => hmv0 (by rw [h])
      rw [show modPart (some m) (some v) =
          (if v = 0 then modStr m else modStr m ++ natRepr v) from rfl,
        if_neg hv, List.append_assoc]
      exact readMod_lit m hm _

theorem readVal_end {a : Type} (o : Option a) (mv : Option Nat)
    (hsome : mv.isSome = true → o.isSome = true) :
    readVal o (valPart mv) = (mv, []) := by
  have h := readVal_full o mv [] trivial hsome
  rwa [List.append_nil] at h

theorem natRepr_isEmpty (n : Nat) : (natRepr n).isEmpty = false := by
  cases hc : natRepr n with
  | nil => exact absurd hc (natRepr_ne_nil n)
  | cons a as => rfl

theorem matchGroupAt_describe (g : DiceSet)
    (hmt : g.mod_type ≠ some ModType.rr)
    (hmv0 : g.mod_value ≠ some 0)
    (hmv : g.mod_value.isSome = true → g.mod_type.isSome = true)
    (htv : g.target_value.isSome = true → g.target_op.isSome = true)
    (hbare : ¬(g.target_op.isSome = true ∧ g.target_value = none)) :
    matchGroupAt (describeDiceSet g) = some (g, []) := by
  obtain ⟨cnt, sd, mt, mv, et, top, tv⟩ := g
  simp only at hmt hmv0 hmv htv hbare
  have hshape : describeDiceSet ⟨cnt, sd, mt, mv, et, top, tv⟩ =
      natRepr cnt ++ ('d' :: (sidesStr sd ++ (modPart mt mv ++
        (explodePart et ++ testPart top tv)))) := by
    unfold describeDiceSet
    simp only [List.append_assoc, List.cons_append]
  rw [hshape]
  have e1 := readDigits_split (natRepr cnt)
    ('d' :: (sidesStr sd ++ (modPart mt mv ++ (explodePart et ++ testPart top tv))))
    (natRepr_digits cnt) (by rfl)
  have e3 := readMod_modPart mt mv hmt hmv hmv0 et top tv
  have e4 := readVal_full mt mv (explodePart et ++ testPart top tv)
    (headDigitFree_of_headOkET _ (headOkET_et et top tv)) hmv
  have e5 := readExplode_full et (testPart top tv) (headOkT_testPart top tv)
  have e6 := readTest_full top tv htv hbare
  have e7 := readVal_end top tv htv
  cases sd with
  | num n =>
    have e2 := readDigits_split (natRepr n)
      (modPart mt mv ++ (explodePart et ++ testPart top tv))
      (natRepr_digits n) (headDigitFree_modrest mt mv et top tv)
    simp only [sidesStr] at e1
    simp only [matchGroupAt, sidesStr, e1, e2, e3, e4, e5, e6, e7,
      natRepr_isEmpty, natRepr_val, Bool.false_eq_true, if_false]
  | fudge =>
    have e2 : readDigits ('f' :: (modPart mt mv ++ (explodePart et ++ testPart top tv))) =
        ([], 'f' :: (modPart mt mv ++ (explodePart et ++ testPart top tv))) := rfl
    simp only [sidesStr, List.cons_append, List.nil_append] at e1
    simp only [matchGroupAt, sidesStr, List.cons_append, List.nil_append, e1, e2, e3, e4,
      e5, e6, e7, natRepr_isEmpty, natRepr_val, List.isEmpty_nil, if_true,
      Bool.false_eq_true, if_false]

theorem describe_ne_nil (g : DiceSet) : describeDiceSet g ≠ [] := by
  unfold describeDiceSet
  intro h
  simp [List.append_eq_nil] at h

/-- Amended claim C8: for any DiceSet whose rendering is faithful — no
reroll-always (unparseable anyway), no explicit modifier value 0 (dropped by
Python truthiness), values only where their operators are, and no bare
success operator (the success-mode ambiguity) — formatting the description
and re-parsing yields exactly the same DiceSet, as the expression's sole
group with static modifier 0. -/
theorem C8_amended (g : DiceSet)
    (hmt : g.mod_type ≠ some ModType.rr)
    (hmv0 : g.mod_value ≠ some 0)
    (hmv : g.mod_value.isSome = true → g.mod_type.isSome = true)
    (htv : g.target_value.isSome = true → g.target_op.isSome = true)
    (hbare : ¬(g.target_op.isSome = true ∧ g.target_value = none)) :
    parseExpr (describeDiceSet g) = some ⟨[g], 0⟩ := by
  have hm := matchGroupAt_describe g hmt hmv0 hmv htv hbare
  have hfix : canon (describeDiceSet g) = describeDiceSet g :=
    canon_fixed _ (describe_chars g)
  obtain ⟨c, cs, hc⟩ := List.exists_cons_of_ne_nil (describe_ne_nil g)
  rw [hc] at hm
  unfold parseExpr
  rw [hfix, hc]
  simp only [List.length_cons, scanGo, hm]
  simp [modsGo]

/-- Claim C8 counterexample: the parse-produced group `4d6kh0` (modifier
value 0) describes as `4d6kh`, which re-parses with modifier value `None`,
a different DiceGroup — so the round trip fails on a group without
success-mode ambiguity. -/
theorem C8_cex :
    parseStr "4d6kh0" =
      some ⟨[⟨4, Sides.num 6, some ModType.kh, some 0, none, none, none⟩], 0⟩ ∧
    describeDiceSet ⟨4, Sides.num 6, some ModType.kh, some 0, none, none, none⟩ =
      ['4', 'd', '6', 'k', 'h'] ∧
    parseExpr (describeDiceSet ⟨4, Sides.num 6, some ModType.kh, some 0, none, none, none⟩) =
      some ⟨[⟨4, Sides.num 6, some ModType.kh, none, none, none, none⟩], 0⟩ ∧
    (⟨4, Sides.num 6, some ModType.kh, none, none, none, none⟩ : DiceSet) ≠
      ⟨4, Sides.num 6, some ModType.kh, some 0, none, none, none⟩ :=
  ⟨rfl, rfl, rfl, by decide⟩

theorem C8_amended_wit :
    ((⟨2, Sides.num 6, some ModType.kh, some 3, some ExplodeTy.bang, some TestOp.gt, some 5⟩ :
        DiceSet).mod_type ≠ some ModType.rr) ∧
    ((⟨2, Sides.num 6, some ModType.kh, some 3, some ExplodeTy.bang, some TestOp.gt, some 5⟩ :
        DiceSet).mod_value ≠ some 0) ∧
    parseExpr (describeDiceSet
        ⟨2, Sides.num 6, some ModType.kh, some 3, some ExplodeTy.bang, some TestOp.gt, some 5⟩) =
      some ⟨[⟨2, Sides.num 6, some ModType.kh, some 3, some ExplodeTy.bang, some TestOp.gt,
        some 5⟩], 0⟩ :=
  ⟨by decide, by decide,
    C8_amended ⟨2, Sides.num 6, some ModType.kh, some 3, some ExplodeTy.bang, some TestOp.gt,
      some 5⟩ (by decide) (by decide) (by decide) (by decide) (by decide)⟩
